import Mathlib

/-!
Shallow embedding of `app.py` (incident-simulation chat system).

The program has two components:
* `Agent` — persona with a role-specific knowledge base, keyword-recurrence
  memory, `bid` scoring and `step` (model call with transcript/cache
  bookkeeping);
* `CommunicationManager.run_simulation` — the dispatcher turn loop
  (commands, cache check, explicit addressing, bid round).

Python strings are modelled as Lean `String` (a wrapper around `List Char`);
the Python string operations used by the program (`in`, `.lower()`,
`.split(sep)`, `.split()`, `.strip()`, `.startswith`, slicing) are defined
below over `List Char` so that everything reduces in the kernel.

Python dicts are modelled as follows:
* `Agent.keyword_memory` (`dict` keyword -> count) as a total function
  `String → Nat` with 0 meaning "absent" — the program only ever stores
  counts ≥ 1, tests membership, reads and writes, so this is observationally
  identical;
* `Agent.shared_memory` (message -> reply) as an association list with
  in-place update, since the program tests membership and reads/writes keys;
* the `knowledge_base.json` content as an association list from role to a
  record with optional fields (a missing role yields the record with both
  fields absent, i.e. Python's `{}`);
* the agent registry (`self.agents`) as a list of agents in insertion order
  (dict iteration order is insertion order).

The external language model (`self.model(...)`) is an oracle
`String → Option String`; `none` models the call raising an exception.
A fallible computation (Python code that can raise an uncaught exception,
such as `bid` hitting a missing `'keywords'` key) is an `Except String` value.
-/

set_option maxRecDepth 4000

/-! ## Python string primitives -/

/-- Occurrence test used by Python's `needle in hay` on the char-list level. -/
def subOccursAux (n : List Char) : List Char → Bool
  | [] => n.isEmpty
  | c :: t => n.isPrefixOf (c :: t) || subOccursAux n t

/-- Python `needle in hay` (substring containment). -/
def pyIn (needle hay : String) : Bool :=
  subOccursAux needle.data hay.data

/-- Python `s.lower()` (the program only compares ASCII text). -/
def pyLower (s : String) : String :=
  ⟨s.data.map Char.toLower⟩

/-- Python `s.strip()`: drop whitespace from both ends. -/
def stripL (l : List Char) : List Char :=
  ((l.dropWhile Char.isWhitespace).reverse.dropWhile Char.isWhitespace).reverse

/-- Helper for `splitOnL`; the `fuel` argument (initially the length of the
text, which suffices because every step consumes at least one character)
makes the recursion structural. `acc` holds the current piece reversed. -/
def splitOnAuxL (sep : List Char) : Nat → List Char → List Char → List (List Char)
  | _, acc, [] => [acc.reverse]
  | 0, acc, l => [acc.reverse ++ l]
  | fuel + 1, acc, c :: t =>
    if sep.isPrefixOf (c :: t) && !sep.isEmpty then
      acc.reverse :: splitOnAuxL sep fuel [] ((c :: t).drop sep.length)
    else
      splitOnAuxL sep fuel (c :: acc) t

/-- Python `s.split(sep)` for a nonempty separator (the program always splits
on `"User: " + message`, which is nonempty). -/
def splitOnL (sep l : List Char) : List (List Char) :=
  splitOnAuxL sep l.length [] l

/-- Helper for `pySplitWs`; `acc` holds the current word reversed. -/
def pySplitWsAux : List Char → List Char → List (List Char)
  | acc, [] => if acc.isEmpty then [] else [acc.reverse]
  | acc, c :: t =>
    if c.isWhitespace then
      if acc.isEmpty then pySplitWsAux [] t else acc.reverse :: pySplitWsAux [] t
    else
      pySplitWsAux (c :: acc) t

/-- Python `s.split()` with no argument: split on whitespace runs, no empty
pieces. -/
def pySplitWs (l : List Char) : List (List Char) :=
  pySplitWsAux [] l

/-- A regex word character (`\w` over ASCII): letter, digit or underscore. -/
def isWordChar (c : Char) : Bool :=
  c.isAlphanum || c == '_'

/-- Word-boundary check for the character before a candidate match. -/
def prevBoundaryOk : Option Char → Bool
  | none => true
  | some c => !isWordChar c

/-- Word-boundary check for the text following a candidate match. -/
def nextBoundaryOk : List Char → Bool
  | [] => true
  | c :: _ => !isWordChar c

/-- Scan for a whole-word occurrence of `n` (already lowercased); `prev` is
the character preceding the current position. -/
def wwAux (n : List Char) : Option Char → List Char → Bool
  | prev, [] => prevBoundaryOk prev && n.isEmpty
  | prev, c :: t =>
    (prevBoundaryOk prev && n.isPrefixOf (c :: t) &&
      nextBoundaryOk ((c :: t).drop n.length)) || wwAux n (some c) t

/-- Python `re.search(f"\\b{name}\\b", s, re.IGNORECASE)` viewed as a Bool,
for a `name` made of word characters (the persona names are). -/
def wholeWordCI (name s : String) : Bool :=
  wwAux (name.data.map Char.toLower) none (s.data.map Char.toLower)

/-- Split a character list into lines at newline characters (used to state
the transcript-shape claims). -/
def linesOf : List Char → List (List Char)
  | [] => [[]]
  | c :: t =>
    if c == '\n' then [] :: linesOf t
    else
      match linesOf t with
      | [] => [[c]]
      | h :: r => (c :: h) :: r

/-! ## Data model -/

/-- One role's record in `knowledge_base.json`. The JSON object is a dict;
`bid` subscripts `['keywords']` and the focus command subscripts `['focus']`,
so each field is optional (`none` = key absent, as in the empty record `{}`
that `_get_knowledge_base_for` returns for a missing role). -/
structure KBRecord where
  keywords? : Option (List String)
  focus? : Option String

/-- `Agent._get_knowledge_base_for`: `knowledge_bases.get(role, {})`. -/
def knowledgeBaseFor (kbs : List (String × KBRecord)) (role : String) : KBRecord :=
  match kbs.find? (fun p => p.1 == role) with
  | some p => p.2
  | none => { keywords? := none, focus? := none }

/-- The mutable state of one `Agent`.  `keyword_memory` is the recurrence
dict as a count function (0 = absent); `stored_messages` keeps the appended
output messages (the initial system message is presentation-only and not
modelled); `history` is the list of `(input, output)` pairs. -/
structure AgentState where
  name : String
  role : String
  knowledge_base : KBRecord
  keyword_memory : String → Nat
  stored_messages : List String
  history : List (String × String)

/-- `Agent.__init__` for a given parsed `knowledge_base.json` content. -/
def mkAgent (name role : String) (kbs : List (String × KBRecord)) : AgentState :=
  { name := name
    role := role
    knowledge_base := knowledgeBaseFor kbs role
    keyword_memory := fun _ => 0
    stored_messages := []
    history := [] }

/-- The external chat model: prompt to reply; `none` models the call raising
an exception. -/
def Model : Type := String → Option String

/-! ## Agent.bid -/

/-- The keyword loop of `Agent.bid`, threading the running `bid_value` and
the keyword-recurrence dict:

    for keyword in self.knowledge_base['keywords']:
        if keyword in message.content:
            bid_value += 5
            if keyword in self.keyword_memory:
                self.keyword_memory[keyword] += 1
                if self.keyword_memory[keyword] > 3:
                    bid_value -= 2
            else:
                self.keyword_memory[keyword] = 1
-/
def bidCore (msg : String) : Int → (String → Nat) → List String → Int × (String → Nat)
  | acc, mem, [] => (acc, mem)
  | acc, mem, k :: rest =>
    if pyIn k msg then
      if 1 ≤ mem k then
        bidCore msg
          (if 3 < mem k + 1 then acc + 5 - 2 else acc + 5)
          (fun x => if x == k then mem k + 1 else mem x) rest
      else
        bidCore msg (acc + 5) (fun x => if x == k then 1 else mem x) rest
    else
      bidCore msg acc mem rest

/-- The urgency loop of `Agent.bid`:

    for keyword in ["urgent", "asap", "immediately"]:
        if keyword in message.content:
            bid_value += 10
-/
def urgencyAdd (msg : String) (acc : Int) : Int :=
  ["urgent", "asap", "immediately"].foldl
    (fun v k => if pyIn k msg then v + 10 else v) acc

/-- `Agent.bid`.  Subscripting `self.knowledge_base['keywords']` raises
`KeyError` when the key is absent (the empty record of a missing role), hence
the `Except`.  On success it returns the bid value and the agent with its
mutated `keyword_memory`. -/
def bid (a : AgentState) (msg : String) : Except String (Int × AgentState) :=
  match a.knowledge_base.keywords? with
  | none => .error "KeyError: keywords"
  | some kws =>
    .ok (urgencyAdd msg (bidCore msg 0 a.keyword_memory kws).1,
         { a with keyword_memory := (bidCore msg 0 a.keyword_memory kws).2 })

/-! ## Agent.step -/

/-- The fixed fallback reply substituted when the model call raises. -/
def apology : String :=
  "Sorry, I encountered an error. Please try again."

/-- The reply post-processing inside `Agent.step`:

    parsed_output = raw_output.content.split("User: " + input_message.content)[-1].strip()
    if parsed_output.startswith(self.name + ":"):
        parsed_output = parsed_output[len(self.name) + 1:].strip()
-/
def parseOutput (name raw userContent : String) : String :=
  let parts := splitOnL ("User: " ++ userContent).data raw.data
  let parsed := stripL (parts.getLastD [])
  let label := (name ++ ":").data
  ⟨if label.isPrefixOf parsed then stripL (parsed.drop label.length) else parsed⟩

/-- The context/model part of `Agent.step`: append the user line to the
shared context, call the model on the grown context, parse (or substitute
the apology on failure), and append the labelled reply line.  Returns the
output message content and the new shared context. -/
def agentStepCore (model : Model) (name ctx msg : String) : String × String :=
  let ctx1 := ctx ++ "\nUser: " ++ msg
  let out :=
    match model ctx1 with
    | some raw => parseOutput name raw msg
    | none => apology
  (out, ctx1 ++ "\n" ++ name ++ ": " ++ out)

/-! ## Dispatcher state -/

/-- The process-wide state of a run: the agent registry (dict in insertion
order), `Agent.current_context` (shared transcript) and
`Agent.shared_memory` (reply cache). -/
structure SimState where
  agents : List AgentState
  current_context : String
  shared_memory : List (String × String)

/-- Python dict read `mem[k]` as an `Option` (also the membership test
`k in mem`). -/
def memGet? : List (String × String) → String → Option String
  | [], _ => none
  | (k', v') :: rest, k => if k' == k then some v' else memGet? rest k

/-- Python dict write `mem[k] = v`: overwrite in place, else append. -/
def memSet : List (String × String) → String → String → List (String × String)
  | [], k, v => [(k, v)]
  | (k', v') :: rest, k, v =>
    if k' == k then (k', v) :: rest else (k', v') :: memSet rest k v

/-- Replace the (uniquely named) agent in the registry by its mutated
version; Python mutates the object held by the dict in place. -/
def updateAgent (agents : List AgentState) (a : AgentState) : List AgentState :=
  agents.map (fun b => if b.name == a.name then a else b)

/-- The observable outcome of one dispatcher loop iteration. -/
inductive TurnOut where
  | exited
  | listed (entries : List String)
  | focus (output : Option String)
  | cached (reply : String)
  | replied (agentName reply : String)

/-- `agent.step(incident_message)` plus the registry update: the full effect
of routing a message to one agent.  The last component counts model
invocations (always exactly one here). -/
def doStep (model : Model) (st : SimState) (a : AgentState) (msg : String) :
    TurnOut × SimState × Nat :=
  let r := agentStepCore model a.name st.current_context msg
  let a' := { a with
    stored_messages := a.stored_messages ++ [r.1]
    history := a.history ++ [(msg, r.1)] }
  (.replied a.name r.1,
   { agents := updateAgent st.agents a'
     current_context := r.2
     shared_memory := memSet st.shared_memory msg r.1 },
   1)

/-- The bid dict comprehension
`bids = {agent_name: agent.bid(incident_message) for ...}`: bids in registry
order together with the mutated agents; any `bid` raising aborts the turn. -/
def collectBids (msg : String) : List AgentState → Except String (List (String × Int) × List AgentState)
  | [] => .ok ([], [])
  | a :: rest =>
    match bid a msg with
    | .error e => .error e
    | .ok r =>
      match collectBids msg rest with
      | .error e => .error e
      | .ok rs => .ok ((a.name, r.1) :: rs.1, r.2 :: rs.2)

/-- Helper for `pyMaxKey`: Python `max` keeps the current best on ties, so
the first key with the maximal value wins. -/
def pyMaxKeyAux (bestK : String) (bestV : Int) : List (String × Int) → String
  | [] => bestK
  | (k, v) :: rest => if bestV < v then pyMaxKeyAux k v rest else pyMaxKeyAux bestK bestV rest

/-- Python `max(bids, key=bids.get)`; `none` for the empty dict (where Python
raises `ValueError`). -/
def pyMaxKey : List (String × Int) → Option String
  | [] => none
  | (k, v) :: rest => some (pyMaxKeyAux k v rest)

/-- The broadcast-bid branch of `run_simulation`: collect all bids, pick the
max-bid agent (first wins ties), and let it step. -/
def runBidRound (model : Model) (st : SimState) (msg : String) :
    Except String (TurnOut × SimState × Nat) :=
  match collectBids msg st.agents with
  | .error e => .error e
  | .ok r =>
    match pyMaxKey r.1 with
    | none => .error "ValueError: max of empty bid dict"
    | some winner =>
      match r.2.find? (fun a => a.name == winner) with
      | none => .error "KeyError: winner not in registry"
      | some a => .ok (doStep model { st with agents := r.2 } a msg)

/-- One iteration of the `while True` loop in
`CommunicationManager.run_simulation` for input `input`:
exit/quit, `list all agents`, the focus command, the cache check, explicit
addressing, then the bid round.  The `Nat` counts model invocations in the
turn. -/
def runTurn (model : Model) (st : SimState) (input : String) :
    Except String (TurnOut × SimState × Nat) :=
  if pyLower input == "exit" || pyLower input == "quit" then
    .ok (.exited, st, 0)
  else if pyLower input == "list all agents" then
    .ok (.listed (st.agents.map (fun a => a.name ++ " - " ++ a.role)), st, 0)
  else if pyIn "what's your focus" (pyLower input) then
    let tok : String := ⟨(pySplitWs input.data).getLastD []⟩
    match st.agents.find? (fun a => a.name == tok) with
    | some a =>
      match a.knowledge_base.focus? with
      | some f => .ok (.focus (some f), st, 0)
      | none => .error "KeyError: focus"
    | none => .ok (.focus none, st, 0)
  else
    match memGet? st.shared_memory input with
    | some r => .ok (.cached r, st, 0)
    | none =>
      match st.agents.find? (fun a => wholeWordCI a.name input) with
      | some a => .ok (doStep model st a input)
      | none => runBidRound model st input

/-- Run a sequence of inputs through the loop, requiring every turn to be a
routed (non-command, non-cached) reply; collects `(message, agentName,
reply)` per turn. -/
def runTurns (model : Model) (st : SimState) :
    List String → Except String (SimState × List (String × String × String))
  | [] => .ok (st, [])
  | m :: rest =>
    match runTurn model st m with
    | .error e => .error e
    | .ok (.replied name reply, st', _) =>
      match runTurns model st' rest with
      | .error e => .error e
      | .ok rr => .ok (rr.1, (m, name, reply) :: rr.2)
    | .ok _ => .error "turn was not a routed reply"

/-! ## Basic string and memory lemmas -/

theorem strData_append (a b : String) : (a ++ b).data = a.data ++ b.data := rfl

theorem strEq_of_data {a b : String} (h : a.data = b.data) : a = b := by
  cases a; cases b; cases h; rfl

theorem strAppend_empty (a : String) : a ++ "" = a :=
  strEq_of_data (by simp [strData_append])

theorem strAppend_assoc (a b c : String) : a ++ b ++ c = a ++ (b ++ c) :=
  strEq_of_data (by simp [strData_append])

theorem memGet?_memSet_self (mem : List (String × String)) (k v : String) :
    memGet? (memSet mem k v) k = some v := by
  induction mem with
  | nil => simp [memSet, memGet?]
  | cons p rest ih =>
    obtain ⟨k', v'⟩ := p
    by_cases h : k' = k
    · simp [memSet, memGet?, h]
    · simp [memSet, memGet?, h, ih]

/-! ## C1: missing role -/

/-- A concrete `knowledge_base.json` content in which the role `Assistant`
is absent. -/
def kbFileC1 : List (String × KBRecord) :=
  [("CEO", { keywords? := some ["partnership", "media"], focus? := some "company vision" })]

/-- C1: for a persona whose role is missing from the knowledge base, the
knowledge record is indeed empty (Python `{}`: both keys absent) — but
`bid` then raises `KeyError` on `self.knowledge_base['keywords']` instead of
returning 0, for every message (here: `"hello"`, and the `"urgent"` message
shows even urgency markers never get scored).  This contradicts the claim
that bid returns 0 without raising; the `get(role, {})` default shows the
graceful behaviour was the intent, so this is a bug in the code. -/
theorem missing_role_empty_record_but_bid_raises :
    knowledgeBaseFor kbFileC1 "Assistant" = { keywords? := none, focus? := none } ∧
    bid (mkAgent "Da" "Assistant" kbFileC1) "hello" = .error "KeyError: keywords" ∧
    bid (mkAgent "Da" "Assistant" kbFileC1) "urgent" = .error "KeyError: keywords" :=
  ⟨rfl, rfl, rfl⟩

/-! ## Bid arithmetic -/

/-- The net contribution of a matched keyword with prior recurrence count
`mem k`: 5 on the first three matches, 3 (i.e. 5 − 2) afterwards. -/
def contribOf (mem : String → Nat) (k : String) : Int :=
  if 3 ≤ mem k then 3 else 5

theorem bidCore_nil (msg : String) (acc : Int) (mem : String → Nat) :
    bidCore msg acc mem [] = (acc, mem) := rfl

/-- If no keyword matches, the keyword loop contributes nothing and leaves
the recurrence dict untouched. -/
theorem bidCore_no_match (msg : String) :
    ∀ (kws : List String), (∀ k ∈ kws, pyIn k msg = false) →
    ∀ (acc : Int) (mem : String → Nat), bidCore msg acc mem kws = (acc, mem) := by
  intro kws
  induction kws with
  | nil => intro _ acc mem; rfl
  | cons k rest ih =>
    intro h acc mem
    have hk : pyIn k msg = false := h k (List.mem_cons_self k rest)
    rw [bidCore, if_neg (by simp [hk])]
    exact ih (fun x hx => h x (List.mem_cons_of_mem k hx)) acc mem

/-- The loop only ever adds a positive net amount per keyword. -/
theorem bidCore_mono (msg : String) :
    ∀ (kws : List String) (acc : Int) (mem : String → Nat),
    acc ≤ (bidCore msg acc mem kws).1 := by
  intro kws
  induction kws with
  | nil => intro acc mem; simp [bidCore]
  | cons k rest ih =>
    intro acc mem
    rw [bidCore]
    by_cases hk : pyIn k msg = true
    · rw [if_pos (by simp [hk])]
      by_cases hm : 1 ≤ mem k
      · rw [if_pos hm]
        refine le_trans ?_ (ih _ _)
        split <;> omega
      · rw [if_neg hm]
        refine le_trans ?_ (ih _ _)
        omega
    · rw [if_neg (by simp at hk ⊢; exact hk)]
      exact ih acc mem

/-- Closed form of the keyword loop for a duplicate-free keyword list: the
value is the sum of per-matched-keyword contributions computed from the
recurrence counts at entry, and every matched keyword's count goes up by
exactly one. -/
theorem bidCore_spec (msg : String) :
    ∀ (kws : List String), kws.Nodup →
    ∀ (acc : Int) (mem : String → Nat),
    bidCore msg acc mem kws =
      (acc + ((kws.filter (fun k => pyIn k msg)).map (contribOf mem)).sum,
       fun x => if x ∈ kws ∧ pyIn x msg then mem x + 1 else mem x) := by
  intro kws
  induction kws with
  | nil =>
    intro _ acc mem
    rw [bidCore_nil]
    refine Prod.ext (by simp) (funext fun x => by simp)
  | cons k rest ih =>
    intro hnd acc mem
    obtain ⟨hk_rest, hrest⟩ := List.nodup_cons.mp hnd
    by_cases hk : pyIn k msg = true
    · have hstep : bidCore msg acc mem (k :: rest) =
          bidCore msg (acc + contribOf mem k)
            (fun x => if x == k then mem k + 1 else mem x) rest := by
        rw [bidCore, if_pos hk]
        by_cases hm : 1 ≤ mem k
        · rw [if_pos hm]
          have harith : (if 3 < mem k + 1 then acc + 5 - 2 else acc + 5)
              = acc + contribOf mem k := by
            unfold contribOf
            split <;> split <;> omega
          rw [harith]
        · rw [if_neg hm]
          have hm0 : mem k = 0 := by omega
          have harith : acc + (5 : Int) = acc + contribOf mem k := by
            unfold contribOf
            rw [if_neg (by omega)]
          have hfun : (fun x => if x == k then 1 else mem x)
              = (fun x => if x == k then mem k + 1 else mem x) := by
            funext x
            rw [hm0]
          rw [harith, hfun]
      rw [hstep, ih hrest]
      have hmem_agree : ∀ x ∈ rest.filter (fun k' => pyIn k' msg),
          contribOf (fun x => if x == k then mem k + 1 else mem x) x = contribOf mem x := by
        intro x hx
        have hx_rest : x ∈ rest := List.mem_of_mem_filter hx
        have hxk : (x == k) = false :=
          beq_eq_false_iff_ne.mpr (fun hcontra => hk_rest (hcontra ▸ hx_rest))
        unfold contribOf
        simp [hxk]
      refine Prod.ext ?_ (funext fun x => ?_)
      · dsimp only
        rw [List.map_congr_left hmem_agree, List.filter_cons]
        simp only [hk, if_true, List.map_cons, List.sum_cons]
        ring
      · dsimp only
        by_cases hxk : x = k
        · subst hxk
          simp [hk_rest, hk]
        · simp [hxk, List.mem_cons]
    · have hk' : pyIn k msg = false := by simpa using hk
      rw [bidCore, if_neg (by simp [hk']), ih hrest]
      refine Prod.ext ?_ (funext fun x => ?_)
      · dsimp only
        rw [List.filter_cons]
        simp [hk']
      · dsimp only
        by_cases hxk : x = k
        · subst hxk
          simp [hk']
        · simp [hxk, List.mem_cons]

/-- The urgency loop only adds to its entry value. -/
theorem urgencyAdd_mono (msg : String) (acc : Int) : acc ≤ urgencyAdd msg acc := by
  unfold urgencyAdd
  simp only [List.foldl]
  split_ifs <;> omega

/-- The urgency loop adds a flat 10 for each of the three fixed markers
found in the message, independently of the entry value. -/
theorem urgencyAdd_count (msg : String) (acc : Int) :
    urgencyAdd msg acc = acc +
      10 * ((["urgent", "asap", "immediately"].filter (fun k => pyIn k msg)).length : Int) := by
  unfold urgencyAdd
  simp only [List.foldl, List.filter_cons, List.filter_nil]
  split_ifs <;> simp [List.length] <;> omega

/-- `bid` on an agent whose knowledge base has its keyword list. -/
theorem bid_eq_of_keywords {a : AgentState} {kws : List String}
    (h : a.knowledge_base.keywords? = some kws) (msg : String) :
    bid a msg = .ok (urgencyAdd msg (bidCore msg 0 a.keyword_memory kws).1,
      { a with keyword_memory := (bidCore msg 0 a.keyword_memory kws).2 }) := by
  unfold bid
  rw [h]

/-! ## C4: urgency markers -/

/-- A persona whose (legitimate) keyword list contains `"asap"`. -/
def agentAsapOnly : AgentState :=
  { name := "Tyne"
    role := "CTO"
    knowledge_base := { keywords? := some ["asap"], focus? := some "infrastructure" }
    keyword_memory := fun _ => 0
    stored_messages := []
    history := [] }

/-- C4 counterexample: the claim says every persona scores exactly +20 on
the message `"urgent asap"`.  A persona whose keyword list contains
`"asap"` (a substring of the message) scores 25 = 5 (keyword) + 20
(urgency), not 20. -/
theorem urgency_twenty_counterexample :
    (bid agentAsapOnly "urgent asap").map Prod.fst = Except.ok 25 ∧
    (bid agentAsapOnly "urgent asap").map Prod.fst ≠ Except.ok 20 := by
  constructor
  · rfl
  · rw [show (bid agentAsapOnly "urgent asap").map Prod.fst = Except.ok (25 : Int) from rfl]
    simp

/-- C4 (amended): each of the three fixed urgency markers present as a
substring of the message adds a flat +10 to the bid, uncapped, independent
of and additive with the keyword score; consequently a persona none of
whose knowledge-base keywords occurs as a substring of `"urgent asap"`
scores exactly +20 on that message (a persona with a matching keyword
scores more, see the counterexample). -/
theorem urgency_flat_additive (a : AgentState) (kws : List String)
    (h : a.knowledge_base.keywords? = some kws)
    (hnm : ∀ k ∈ kws, pyIn k "urgent asap" = false) :
    (∀ msg : String, ∃ v a', bid a msg = .ok (v, a') ∧
        v = (bidCore msg 0 a.keyword_memory kws).1 +
          10 * ((["urgent", "asap", "immediately"].filter (fun k => pyIn k msg)).length : Int)) ∧
    (∃ a', bid a "urgent asap" = .ok (20, a')) := by
  constructor
  · intro msg
    exact ⟨_, _, bid_eq_of_keywords h msg, urgencyAdd_count msg _⟩
  · have hcore : bidCore "urgent asap" 0 a.keyword_memory kws = (0, a.keyword_memory) :=
      bidCore_no_match "urgent asap" kws hnm 0 a.keyword_memory
    refine ⟨{ a with keyword_memory := a.keyword_memory }, ?_⟩
    rw [bid_eq_of_keywords h "urgent asap", hcore]
    rfl

/-- A persona whose keyword list has nothing to do with urgency text. -/
def agentDeployOnly : AgentState :=
  { name := "Da"
    role := "Assistant"
    knowledge_base := { keywords? := some ["deploy", "rollback"], focus? := some "deployments" }
    keyword_memory := fun _ => 0
    stored_messages := []
    history := [] }

/-- C4 witness: the amended statement at a concrete persona. -/
theorem urgency_flat_additive_witness :
    (∀ msg : String, ∃ v a', bid agentDeployOnly msg = .ok (v, a') ∧
        v = (bidCore msg 0 agentDeployOnly.keyword_memory ["deploy", "rollback"]).1 +
          10 * ((["urgent", "asap", "immediately"].filter (fun k => pyIn k msg)).length : Int)) ∧
    (∃ a', bid agentDeployOnly "urgent asap" = .ok (20, a')) :=
  urgency_flat_additive agentDeployOnly ["deploy", "rollback"] rfl (by decide)

/-! ## C8: bid is non-negative, deterministic, and local to one persona -/

/-- In a bid round every agent is updated by exactly its own `bid` and
nothing else. -/
theorem collectBids_spec (msg : String) :
    ∀ (pre : List AgentState) (bs : List (String × Int)) (post : List AgentState),
    collectBids msg pre = .ok (bs, post) →
    ∀ (i : Nat) (c : AgentState), pre[i]? = some c →
    ∃ w c', bid c msg = .ok (w, c') ∧ post[i]? = some c' := by
  intro pre
  induction pre with
  | nil =>
    intro bs post h i c hc
    simp at hc
  | cons a rest ih =>
    intro bs post h i c hc
    rw [collectBids] at h
    cases hba : bid a msg with
    | error e => rw [hba] at h; exact absurd h (by simp)
    | ok r =>
      rw [hba] at h
      cases hrest : collectBids msg rest with
      | error e => rw [hrest] at h; exact absurd h (by simp)
      | ok rs =>
        rw [hrest] at h
        have hpost : post = r.2 :: rs.2 := by
          have := (Except.ok.injEq _ _).mp h
          exact (Prod.mk.injEq _ _ _ _).mp this |>.2.symm
        subst hpost
        cases i with
        | zero =>
          simp only [List.getElem?_cons_zero, Option.some.injEq] at hc
          subst hc
          exact ⟨r.1, r.2, hba, by simp⟩
        | succ j =>
          simp only [List.getElem?_cons_succ] at hc ⊢
          exact ih rs.1 rs.2 hrest j c hc

/-- C8: for every message and every persona whose knowledge base has its
keyword list, `bid` succeeds with a non-negative value; the value and the
resulting recurrence state are a function of only the keyword list, the
prior recurrence state and the message text (determinism); `bid` leaves
every field of the agent except `keyword_memory` unchanged; and in a bid
round over a whole registry each agent is updated by exactly its own `bid`,
so bidding never affects the other personas. -/
theorem bid_nonneg_deterministic (a : AgentState) (msg : String) (kws : List String)
    (h : a.knowledge_base.keywords? = some kws) :
    ∃ v a', bid a msg = .ok (v, a') ∧ 0 ≤ v ∧
      a'.name = a.name ∧ a'.role = a.role ∧ a'.knowledge_base = a.knowledge_base ∧
      a'.stored_messages = a.stored_messages ∧ a'.history = a.history ∧
      (∀ b : AgentState, b.knowledge_base.keywords? = a.knowledge_base.keywords? →
        b.keyword_memory = a.keyword_memory →
        ∃ b', bid b msg = .ok (v, b') ∧ b'.keyword_memory = a'.keyword_memory) ∧
      (∀ (pre : List AgentState) (bs : List (String × Int)) (post : List AgentState),
        collectBids msg pre = .ok (bs, post) →
        ∀ (i : Nat) (c : AgentState), pre[i]? = some c →
        ∃ w c', bid c msg = .ok (w, c') ∧ post[i]? = some c') := by
  refine ⟨_, _, bid_eq_of_keywords h msg, ?_, rfl, rfl, rfl, rfl, rfl, ?_, ?_⟩
  · exact le_trans (bidCore_mono msg kws 0 a.keyword_memory) (urgencyAdd_mono msg _)
  · intro b hb1 hb2
    have hbk : b.knowledge_base.keywords? = some kws := hb1.trans h
    refine ⟨{ b with keyword_memory := (bidCore msg 0 a.keyword_memory kws).2 }, ?_, rfl⟩
    rw [bid_eq_of_keywords hbk msg, hb2]
  · exact collectBids_spec msg

/-- C8 witness: the statement at a concrete persona and message. -/
theorem bid_nonneg_deterministic_witness :
    ∃ v a', bid agentDeployOnly "deploy now" = .ok (v, a') ∧ 0 ≤ v ∧
      a'.name = agentDeployOnly.name ∧ a'.role = agentDeployOnly.role ∧
      a'.knowledge_base = agentDeployOnly.knowledge_base ∧
      a'.stored_messages = agentDeployOnly.stored_messages ∧
      a'.history = agentDeployOnly.history ∧
      (∀ b : AgentState,
        b.knowledge_base.keywords? = agentDeployOnly.knowledge_base.keywords? →
        b.keyword_memory = agentDeployOnly.keyword_memory →
        ∃ b', bid b "deploy now" = .ok (v, b') ∧ b'.keyword_memory = a'.keyword_memory) ∧
      (∀ (pre : List AgentState) (bs : List (String × Int)) (post : List AgentState),
        collectBids "deploy now" pre = .ok (bs, post) →
        ∀ (i : Nat) (c : AgentState), pre[i]? = some c →
        ∃ w c', bid c "deploy now" = .ok (w, c') ∧ post[i]? = some c') :=
  bid_nonneg_deterministic agentDeployOnly "deploy now" ["deploy", "rollback"] rfl

/-! ## C2: keyword recurrence penalty -/

/-- Run a sequence of `bid` calls against one persona (the dispatcher does
this once per bid round); an erroring call leaves the agent unchanged. -/
def bidSeq (a : AgentState) : List String → AgentState
  | [] => a
  | m :: rest =>
    match bid a m with
    | .ok r => bidSeq r.2 rest
    | .error _ => bidSeq a rest

/-- The same persona with one keyword removed from its knowledge base; used
to state what a keyword "contributes" to a bid. -/
def dropKeyword (a : AgentState) (k : String) : AgentState :=
  { a with knowledge_base := { a.knowledge_base with
      keywords? := a.knowledge_base.keywords?.map (fun l => l.erase k) } }

/-- A successful `bid` changes nothing but the recurrence counters. -/
theorem bid_preserves {a : AgentState} {msg : String} {v : Int} {a' : AgentState}
    (h : bid a msg = .ok (v, a')) :
    a'.name = a.name ∧ a'.role = a.role ∧ a'.knowledge_base = a.knowledge_base ∧
    a'.stored_messages = a.stored_messages ∧ a'.history = a.history := by
  unfold bid at h
  cases hk : a.knowledge_base.keywords? with
  | none => rw [hk] at h; exact absurd h (by simp)
  | some kws =>
    rw [hk] at h
    simp only [Except.ok.injEq, Prod.mk.injEq] at h
    obtain ⟨-, ha⟩ := h
    subst ha
    exact ⟨rfl, rfl, rfl, rfl, rfl⟩

/-- `bidSeq` never touches the knowledge base. -/
theorem bidSeq_knowledge_base :
    ∀ (msgs : List String) (a : AgentState),
    (bidSeq a msgs).knowledge_base = a.knowledge_base := by
  intro msgs
  induction msgs with
  | nil => intro a; rfl
  | cons m rest ih =>
    intro a
    rw [bidSeq]
    cases hba : bid a m with
    | ok r =>
      have := (bid_preserves hba).2.2.1
      rw [ih r.2, this]
    | error e => rw [ih a]

/-- Every `bid` call whose message contains the keyword bumps that keyword's
recurrence count by exactly one, so after `n` matching calls the count is
`n` more than at the start. -/
theorem bidSeq_memory (kws : List String) (k : String)
    (hnd : kws.Nodup) (hk : k ∈ kws) :
    ∀ (msgs : List String) (a : AgentState),
    a.knowledge_base.keywords? = some kws →
    (∀ x ∈ msgs, pyIn k x = true) →
    (bidSeq a msgs).keyword_memory k = a.keyword_memory k + msgs.length := by
  intro msgs
  induction msgs with
  | nil => intro a _ _; simp [bidSeq]
  | cons m rest ih =>
    intro a ha hmatch
    have hm : pyIn k m = true := hmatch m (List.mem_cons_self m rest)
    have hrest : ∀ x ∈ rest, pyIn k x = true :=
      fun x hx => hmatch x (List.mem_cons_of_mem m hx)
    rw [bidSeq, bid_eq_of_keywords ha m]
    show (bidSeq { a with keyword_memory := (bidCore m 0 a.keyword_memory kws).2 }
        rest).keyword_memory k = a.keyword_memory k + (m :: rest).length
    rw [ih { a with keyword_memory := (bidCore m 0 a.keyword_memory kws).2 } ha hrest]
    show (bidCore m 0 a.keyword_memory kws).2 k + rest.length = _
    rw [bidCore_spec m kws hnd 0 a.keyword_memory]
    show (if k ∈ kws ∧ pyIn k m = true then a.keyword_memory k + 1
          else a.keyword_memory k) + rest.length = _
    rw [if_pos ⟨hk, hm⟩]
    simp [List.length_cons]
    omega

/-- Removing a matched keyword from a duplicate-free keyword list lowers the
keyword-loop value by exactly that keyword's contribution. -/
theorem bidCore_erase (msg : String) (kws : List String) (k : String)
    (hnd : kws.Nodup) (hk : k ∈ kws) (hmatch : pyIn k msg = true)
    (mem : String → Nat) (acc : Int) :
    (bidCore msg acc mem kws).1 =
      (bidCore msg acc mem (kws.erase k)).1 + contribOf mem k := by
  obtain ⟨s, t, rfl⟩ := List.append_of_mem hk
  have hks : k ∉ s ∧ k ∉ t := by
    rw [List.nodup_append] at hnd
    exact ⟨fun hs => hnd.2.2 hs (List.mem_cons_self k t),
      (List.nodup_cons.mp hnd.2.1).1⟩
  have herase : (s ++ k :: t).erase k = s ++ t := by
    rw [List.erase_append_right _ hks.1, List.erase_cons_head]
  have hnd' : (s ++ t).Nodup :=
    List.Nodup.sublist (List.Sublist.append_left (List.sublist_cons_self k t) s) hnd
  rw [herase, bidCore_spec msg _ hnd acc mem, bidCore_spec msg _ hnd' acc mem]
  dsimp only
  simp only [List.filter_append, List.filter_cons, hmatch, if_true,
    List.map_append, List.map_cons, List.sum_append, List.sum_cons]
  ring

/-- C2: within one persona (duplicate-free keyword list), take a keyword `k`
of the persona that has matched in `msgs.length` earlier `bid` calls
(starting from a fresh recurrence count).  Then (i) the recurrence count is
exactly the number of matching calls — it increments on every match
regardless of the penalty branch — and (ii) on the next matching call the
keyword contributes +5 to the bid if at most two calls came before (calls
1–3), and net +3 (5 − 2) from the 4th matching call on, where "contributes"
is measured against the same persona without that keyword. -/
theorem keyword_penalty (a : AgentState) (kws : List String) (k : String)
    (msgs : List String) (m : String)
    (h1 : a.knowledge_base.keywords? = some kws) (h2 : kws.Nodup) (h3 : k ∈ kws)
    (h4 : ∀ x ∈ msgs, pyIn k x = true) (h5 : pyIn k m = true)
    (h6 : a.keyword_memory k = 0) :
    (bidSeq a msgs).keyword_memory k = msgs.length ∧
    ∃ v v' b b', bid (bidSeq a msgs) m = .ok (v, b) ∧
      bid (dropKeyword (bidSeq a msgs) k) m = .ok (v', b') ∧
      v = v' + (if msgs.length < 3 then 5 else 3) ∧
      b.keyword_memory k = msgs.length + 1 := by
  have hmemN : (bidSeq a msgs).keyword_memory k = msgs.length := by
    rw [bidSeq_memory kws k h2 h3 msgs a h1 h4, h6]
    omega
  refine ⟨hmemN, ?_⟩
  have hkN : (bidSeq a msgs).knowledge_base.keywords? = some kws := by
    rw [bidSeq_knowledge_base]
    exact h1
  have hkD : (dropKeyword (bidSeq a msgs) k).knowledge_base.keywords? =
      some (kws.erase k) := by
    show ((bidSeq a msgs).knowledge_base.keywords?.map (fun l => l.erase k)) = _
    rw [hkN]
    rfl
  have hmemD : (dropKeyword (bidSeq a msgs) k).keyword_memory =
      (bidSeq a msgs).keyword_memory := rfl
  refine ⟨_, _, _, _, bid_eq_of_keywords hkN m, bid_eq_of_keywords hkD m, ?_, ?_⟩
  · rw [urgencyAdd_count m _, urgencyAdd_count m _, hmemD,
      bidCore_erase m kws k h2 h3 h5 (bidSeq a msgs).keyword_memory 0]
    have hcontrib : contribOf (bidSeq a msgs).keyword_memory k =
        (if msgs.length < 3 then (5 : Int) else 3) := by
      unfold contribOf
      rw [hmemN]
      split_ifs <;> omega
    rw [hcontrib]
    ring
  · show (bidCore m 0 (bidSeq a msgs).keyword_memory kws).2 k = msgs.length + 1
    rw [bidCore_spec m kws h2 0 (bidSeq a msgs).keyword_memory]
    show (if k ∈ kws ∧ pyIn k m = true then (bidSeq a msgs).keyword_memory k + 1
          else (bidSeq a msgs).keyword_memory k) = _
    rw [if_pos ⟨h3, h5⟩, hmemN]

/-- C2 witness: persona with keyword `"deploy"`, three earlier matching
calls, then a 4th matching call contributing net +3. -/
theorem keyword_penalty_witness :
    (bidSeq agentDeployOnly ["deploy a", "deploy b", "deploy c"]).keyword_memory "deploy" = 3 ∧
    ∃ v v' b b',
      bid (bidSeq agentDeployOnly ["deploy a", "deploy b", "deploy c"]) "deploy again" = .ok (v, b) ∧
      bid (dropKeyword (bidSeq agentDeployOnly ["deploy a", "deploy b", "deploy c"]) "deploy")
        "deploy again" = .ok (v', b') ∧
      v = v' + 3 ∧
      b.keyword_memory "deploy" = 4 :=
  keyword_penalty agentDeployOnly ["deploy", "rollback"] "deploy"
    ["deploy a", "deploy b", "deploy c"] "deploy again"
    rfl (by decide) (by decide) (by decide) (by decide) rfl

/-! ## Dispatcher lemmas -/

/-- The step always appends the user line and the labelled reply line to the
shared context, in that order. -/
theorem agentStepCore_ctx (model : Model) (name ctx msg : String) :
    (agentStepCore model name ctx msg).2 =
      ctx ++ "\nUser: " ++ msg ++ "\n" ++ name ++ ": " ++
        (agentStepCore model name ctx msg).1 := rfl

/-- When the model call raises, the output message is the fixed apology. -/
theorem agentStepCore_fail {model : Model} {name ctx msg : String}
    (h : model (ctx ++ "\nUser: " ++ msg) = none) :
    (agentStepCore model name ctx msg).1 = apology := by
  unfold agentStepCore
  dsimp only
  rw [h]

/-- `doStep` written out. -/
theorem doStep_eq (model : Model) (st : SimState) (a : AgentState) (msg : String) :
    doStep model st a msg =
      (.replied a.name (agentStepCore model a.name st.current_context msg).1,
       { agents := updateAgent st.agents
           { a with
             stored_messages := a.stored_messages ++
               [(agentStepCore model a.name st.current_context msg).1]
             history := a.history ++
               [(msg, (agentStepCore model a.name st.current_context msg).1)] }
         current_context := (agentStepCore model a.name st.current_context msg).2
         shared_memory := memSet st.shared_memory msg
           (agentStepCore model a.name st.current_context msg).1 },
       1) := rfl

/-- What one routed step observably does: reply out, exactly one model
invocation, reply cached under the raw message, the two transcript lines
appended, and only the stepping agent replaced in the registry. -/
theorem doStep_shape (model : Model) (st₂ : SimState) (a : AgentState) (m : String)
    (out : TurnOut) (st' : SimState) (n : Nat)
    (h : doStep model st₂ a m = (out, st', n)) :
    out = .replied a.name (agentStepCore model a.name st₂.current_context m).1 ∧
    n = 1 ∧
    memGet? st'.shared_memory m =
      some (agentStepCore model a.name st₂.current_context m).1 ∧
    st'.current_context = st₂.current_context ++ "\nUser: " ++ m ++ "\n" ++ a.name ++ ": " ++
      (agentStepCore model a.name st₂.current_context m).1 ∧
    st'.agents = updateAgent st₂.agents
      { a with
        stored_messages := a.stored_messages ++
          [(agentStepCore model a.name st₂.current_context m).1]
        history := a.history ++
          [(m, (agentStepCore model a.name st₂.current_context m).1)] } := by
  rw [doStep_eq] at h
  simp only [Prod.mk.injEq] at h
  obtain ⟨h1, h2, h3⟩ := h
  subst h1 h3
  refine ⟨rfl, rfl, ?_, ?_, ?_⟩
  · rw [← h2]
    exact memGet?_memSet_self st₂.shared_memory m _
  · rw [← h2]
    exact agentStepCore_ctx model a.name st₂.current_context m
  · rw [← h2]

/-- A turn whose lowered input is none of the commands and whose raw text is
already a key of `SharedMemory` prints the cached reply and changes
nothing: no agent is invoked, no bids happen, nothing is appended. -/
theorem runTurn_cache_hit (model : Model) (st : SimState) (m r : String)
    (hx : pyLower m ≠ "exit") (hq : pyLower m ≠ "quit")
    (hl : pyLower m ≠ "list all agents")
    (hf : pyIn "what's your focus" (pyLower m) = false)
    (hm : memGet? st.shared_memory m = some r) :
    runTurn model st m = .ok (.cached r, st, 0) := by
  unfold runTurn
  rw [if_neg (by simp [hx, hq]), if_neg (by simp [hl]), if_neg (by simp [hf])]
  simp only [hm]

/-- Master routing lemma: a successful non-command, non-cached turn is a
routed reply with exactly one model invocation; the reply is cached under
the raw message, the transcript grows by the user line and the labelled
reply line, and if the model call on the grown context raises then the
reply is the fixed apology. -/
theorem runTurn_routes (model : Model) (st : SimState) (m : String)
    (out : TurnOut) (st' : SimState) (n : Nat)
    (hx : pyLower m ≠ "exit") (hq : pyLower m ≠ "quit")
    (hl : pyLower m ≠ "list all agents")
    (hf : pyIn "what's your focus" (pyLower m) = false)
    (hc : memGet? st.shared_memory m = none)
    (hrun : runTurn model st m = .ok (out, st', n)) :
    ∃ name r, out = .replied name r ∧ n = 1 ∧
      memGet? st'.shared_memory m = some r ∧
      st'.current_context =
        st.current_context ++ "\nUser: " ++ m ++ "\n" ++ name ++ ": " ++ r ∧
      (model (st.current_context ++ "\nUser: " ++ m) = none → r = apology) := by
  unfold runTurn at hrun
  rw [if_neg (by simp [hx, hq]), if_neg (by simp [hl]), if_neg (by simp [hf])] at hrun
  simp only [hc] at hrun
  cases hfind : st.agents.find? (fun a => wholeWordCI a.name m) with
  | some a =>
    simp only [hfind] at hrun
    have hsh := doStep_shape model st a m out st' n ((Except.ok.injEq _ _).mp hrun)
    obtain ⟨ho, hn, hmem, hctx, -⟩ := hsh
    exact ⟨a.name, _, ho, hn, hmem, hctx,
      fun hfail => agentStepCore_fail hfail⟩
  | none =>
    simp only [hfind] at hrun
    unfold runBidRound at hrun
    cases hcb : collectBids m st.agents with
    | error e => rw [hcb] at hrun; exact absurd hrun (by simp)
    | ok r =>
      rw [hcb] at hrun
      dsimp only at hrun
      cases hmax : pyMaxKey r.1 with
      | none => rw [hmax] at hrun; exact absurd hrun (by simp)
      | some w =>
        rw [hmax] at hrun
        dsimp only at hrun
        cases hfind2 : r.2.find? (fun a => a.name == w) with
        | none => rw [hfind2] at hrun; exact absurd hrun (by simp)
        | some a =>
          rw [hfind2] at hrun
          have hsh := doStep_shape model { st with agents := r.2 } a m out st' n
            ((Except.ok.injEq _ _).mp hrun)
          obtain ⟨ho, hn, hmem, hctx, -⟩ := hsh
          exact ⟨a.name, _, ho, hn, hmem, hctx,
            fun hfail => agentStepCore_fail hfail⟩

/-! ## C3, C10: the reply cache -/

/-- C3: a successful non-command, non-cached turn stores its reply under the
raw message text, so submitting the exact same raw text again returns that
reply byte-for-byte from `SharedMemory` with zero model invocations (the
first turn used exactly one), no persona invoked, no bid round, and the
whole state — transcript included — unchanged. -/
theorem cache_idempotence (model : Model) (st : SimState) (m : String)
    (out : TurnOut) (st' : SimState) (n : Nat)
    (hx : pyLower m ≠ "exit") (hq : pyLower m ≠ "quit")
    (hl : pyLower m ≠ "list all agents")
    (hf : pyIn "what's your focus" (pyLower m) = false)
    (hc : memGet? st.shared_memory m = none)
    (hrun : runTurn model st m = .ok (out, st', n)) :
    n = 1 ∧ ∃ name r, out = .replied name r ∧
      ∀ model₂ : Model, runTurn model₂ st' m = .ok (.cached r, st', 0) := by
  obtain ⟨name, r, ho, hn, hmem, -, -⟩ :=
    runTurn_routes model st m out st' n hx hq hl hf hc hrun
  exact ⟨hn, name, r, ho,
    fun model₂ => runTurn_cache_hit model₂ st' m r hx hq hl hf hmem⟩

/-- The all-succeeding model used by the concrete witnesses. -/
def wModel : Model := fun _ => some "Okay."

/-- The always-raising model used by the concrete witnesses. -/
def wModelFail : Model := fun _ => none

/-- Concrete persona `Ben` for the witnesses. -/
def wBen : AgentState :=
  { name := "Ben"
    role := "CEO"
    knowledge_base := { keywords? := some ["partnership"], focus? := some "vision" }
    keyword_memory := fun _ => 0
    stored_messages := []
    history := [] }

/-- Concrete persona `Tyne` for the witnesses. -/
def wTyne : AgentState :=
  { name := "Tyne"
    role := "CTO"
    knowledge_base := { keywords? := some ["deploy"], focus? := some "infra" }
    keyword_memory := fun _ => 0
    stored_messages := []
    history := [] }

/-- Concrete initial dispatcher state for the witnesses. -/
def wSt : SimState :=
  { agents := [wBen, wTyne]
    current_context := "Incident: something broke."
    shared_memory := [] }

/-- C3 witness: a concrete first turn followed by the cached second turn. -/
theorem cache_idempotence_witness :
    ∃ out st' n, runTurn wModel wSt "the database is corrupted" = .ok (out, st', n) ∧
      (n = 1 ∧ ∃ name r, out = .replied name r ∧
        ∀ model₂ : Model,
          runTurn model₂ st' "the database is corrupted" = .ok (.cached r, st', 0)) :=
  ⟨_, _, _, rfl, cache_idempotence wModel wSt "the database is corrupted" _ _ _
    (by decide) (by decide) (by decide) (by decide) rfl rfl⟩

/-- C10: when the model call raises during a non-command, non-cached turn,
the apology reply is stored in `SharedMemory` under the raw message exactly
like a successful reply, and every later submission of the same text is
served the cached apology with zero model invocations — under any model. -/
theorem failed_reply_cached (model : Model) (st : SimState) (m : String)
    (out : TurnOut) (st' : SimState) (n : Nat)
    (hx : pyLower m ≠ "exit") (hq : pyLower m ≠ "quit")
    (hl : pyLower m ≠ "list all agents")
    (hf : pyIn "what's your focus" (pyLower m) = false)
    (hc : memGet? st.shared_memory m = none)
    (hfail : model (st.current_context ++ "\nUser: " ++ m) = none)
    (hrun : runTurn model st m = .ok (out, st', n)) :
    ∃ name, out = .replied name apology ∧
      memGet? st'.shared_memory m = some apology ∧
      ∀ model₂ : Model, runTurn model₂ st' m = .ok (.cached apology, st', 0) := by
  obtain ⟨name, r, ho, -, hmem, -, hap⟩ :=
    runTurn_routes model st m out st' n hx hq hl hf hc hrun
  have hr : r = apology := hap hfail
  subst hr
  exact ⟨name, ho, hmem,
    fun model₂ => runTurn_cache_hit model₂ st' m apology hx hq hl hf hmem⟩

/-- C10 witness: a concrete failing turn followed by the cached apology. -/
theorem failed_reply_cached_witness :
    ∃ out st' n, runTurn wModelFail wSt "the database is corrupted" = .ok (out, st', n) ∧
      (∃ name, out = .replied name apology ∧
        memGet? st'.shared_memory "the database is corrupted" = some apology ∧
        ∀ model₂ : Model,
          runTurn model₂ st' "the database is corrupted" = .ok (.cached apology, st', 0)) :=
  ⟨_, _, _, rfl, failed_reply_cached wModelFail wSt "the database is corrupted" _ _ _
    (by decide) (by decide) (by decide) (by decide) rfl rfl rfl⟩

/-! ## C6: model failure is recovered, never fatal -/

/-- C6: if the model call raises during a persona's step, the error is not
propagated: the persona substitutes the fixed apology reply, still appends
the user line and the labelled apology line to the shared transcript, still
records the reply in `SharedMemory` and in its private history (and message
store), and the turn ends in a reply — not in the `exited` state, so the
session continues. -/
theorem model_failure_recovery (model : Model) (st : SimState) (m : String) (a : AgentState)
    (hx : pyLower m ≠ "exit") (hq : pyLower m ≠ "quit")
    (hl : pyLower m ≠ "list all agents")
    (hf : pyIn "what's your focus" (pyLower m) = false)
    (hc : memGet? st.shared_memory m = none)
    (haddr : st.agents.find? (fun b => wholeWordCI b.name m) = some a)
    (hfail : model (st.current_context ++ "\nUser: " ++ m) = none) :
    ∃ st', runTurn model st m = .ok (.replied a.name apology, st', 1) ∧
      st'.current_context =
        st.current_context ++ "\nUser: " ++ m ++ "\n" ++ a.name ++ ": " ++ apology ∧
      memGet? st'.shared_memory m = some apology ∧
      st'.agents = updateAgent st.agents
        { a with
          stored_messages := a.stored_messages ++ [apology]
          history := a.history ++ [(m, apology)] } ∧
      TurnOut.replied a.name apology ≠ TurnOut.exited := by
  have hap : (agentStepCore model a.name st.current_context m).1 = apology :=
    agentStepCore_fail hfail
  refine ⟨⟨updateAgent st.agents
      { a with
        stored_messages := a.stored_messages ++ [apology]
        history := a.history ++ [(m, apology)] },
    st.current_context ++ "\nUser: " ++ m ++ "\n" ++ a.name ++ ": " ++ apology,
    memSet st.shared_memory m apology⟩,
    ?_, rfl, memGet?_memSet_self st.shared_memory m apology, rfl, by simp⟩
  unfold runTurn
  rw [if_neg (by simp [hx, hq]), if_neg (by simp [hl]), if_neg (by simp [hf])]
  simp only [hc, haddr]
  rw [doStep_eq, agentStepCore_ctx, hap]

/-- C6 witness: a concrete addressed turn whose model call raises. -/
theorem model_failure_recovery_witness :
    ∃ st', runTurn wModelFail wSt "Tyne please help now" = .ok (.replied wTyne.name apology, st', 1) ∧
      st'.current_context = wSt.current_context ++ "\nUser: " ++ "Tyne please help now" ++
        "\n" ++ wTyne.name ++ ": " ++ apology ∧
      memGet? st'.shared_memory "Tyne please help now" = some apology ∧
      st'.agents = updateAgent wSt.agents
        { wTyne with
          stored_messages := wTyne.stored_messages ++ [apology]
          history := wTyne.history ++ [("Tyne please help now", apology)] } ∧
      TurnOut.replied wTyne.name apology ≠ TurnOut.exited :=
  model_failure_recovery wModelFail wSt "Tyne please help now" wTyne
    (by decide) (by decide) (by decide) (by decide) rfl rfl rfl

/-! ## C5: explicit addressing bypasses bidding -/

/-- C5: for a non-command, non-cached message in which some persona's name
occurs as a case-insensitive whole word, the turn is routed directly via
step to the first such persona in registry insertion order (`find?` over the
registry is exactly the addressing loop), and bidding is bypassed entirely:
no persona's keyword-recurrence state changes — in particular no other
persona's bid, however large, is ever consulted. -/
theorem explicit_addressing (model : Model) (st : SimState) (m : String) (a : AgentState)
    (hx : pyLower m ≠ "exit") (hq : pyLower m ≠ "quit")
    (hl : pyLower m ≠ "list all agents")
    (hf : pyIn "what's your focus" (pyLower m) = false)
    (hc : memGet? st.shared_memory m = none)
    (hnames : (st.agents.map AgentState.name).Nodup)
    (haddr : st.agents.find? (fun b => wholeWordCI b.name m) = some a) :
    ∃ r st', runTurn model st m = .ok (.replied a.name r, st', 1) ∧
      ∀ i : Nat, (st'.agents[i]?).map AgentState.keyword_memory =
        (st.agents[i]?).map AgentState.keyword_memory := by
  have hrun : runTurn model st m = .ok (doStep model st a m) := by
    unfold runTurn
    rw [if_neg (by simp [hx, hq]), if_neg (by simp [hl]), if_neg (by simp [hf])]
    simp only [hc, haddr]
  have hamem : a ∈ st.agents := List.mem_of_find?_eq_some haddr
  refine ⟨(agentStepCore model a.name st.current_context m).1,
    ⟨updateAgent st.agents
      { a with
        stored_messages := a.stored_messages ++
          [(agentStepCore model a.name st.current_context m).1]
        history := a.history ++
          [(m, (agentStepCore model a.name st.current_context m).1)] },
    (agentStepCore model a.name st.current_context m).2,
    memSet st.shared_memory m (agentStepCore model a.name st.current_context m).1⟩,
    by rw [hrun, doStep_eq], ?_⟩
  intro i
  show ((updateAgent st.agents _)[i]?).map AgentState.keyword_memory = _
  unfold updateAgent
  rw [List.getElem?_map]
  cases hi : st.agents[i]? with
  | none => rfl
  | some b =>
    simp only [Option.map_some']
    by_cases hb : b.name = a.name
    · have hba : b = a :=
        List.inj_on_of_nodup_map hnames (List.getElem?_mem hi) hamem hb
      subst hba
      simp
    · have hbeq : (b.name == { a with
          stored_messages := a.stored_messages ++
            [(agentStepCore model a.name st.current_context m).1]
          history := a.history ++
            [(m, (agentStepCore model a.name st.current_context m).1)] }.name) = false := by
        simpa using hb
      rw [if_neg (by simp [hbeq])]

/-- C5 witness: `"Tyne please deploy now"` routes to `Tyne` by name and no
keyword-recurrence state moves (even though `Tyne` has the keyword
`"deploy"` present in the message). -/
theorem explicit_addressing_witness :
    ∃ r st', runTurn wModel wSt "Tyne please deploy now" = .ok (.replied wTyne.name r, st', 1) ∧
      ∀ i : Nat, (st'.agents[i]?).map AgentState.keyword_memory =
        (wSt.agents[i]?).map AgentState.keyword_memory :=
  explicit_addressing wModel wSt "Tyne please deploy now" wTyne
    (by decide) (by decide) (by decide) (by decide) rfl (by decide) rfl

/-! ## C9: focus command naming an unknown persona -/

/-- C9: an input recognized as the focus command (lowercased text contains
`"what's your focus"`, and it is not one of the earlier exact commands)
whose last whitespace-separated token is not an exact persona name produces
no output at all, does not raise, performs zero model invocations, and
returns the state — transcript, `SharedMemory` and every persona —
completely unchanged. -/
theorem focus_unknown_silent (model : Model) (st : SimState) (input : String)
    (hx : pyLower input ≠ "exit") (hq : pyLower input ≠ "quit")
    (hl : pyLower input ≠ "list all agents")
    (h4 : pyIn "what's your focus" (pyLower input) = true)
    (h5 : ∀ a ∈ st.agents, a.name ≠ (⟨(pySplitWs input.data).getLastD []⟩ : String)) :
    runTurn model st input = .ok (.focus none, st, 0) := by
  unfold runTurn
  rw [if_neg (by simp [hx, hq]), if_neg (by simp [hl]), if_pos h4]
  have hfind : st.agents.find?
      (fun a => a.name == (⟨(pySplitWs input.data).getLastD []⟩ : String)) = none :=
    List.find?_eq_none.mpr (fun a ha => by simpa using h5 a ha)
  simp only [hfind]

/-- C9 witness: `"what's your focus Zed"` with no persona named `Zed`. -/
theorem focus_unknown_silent_witness :
    runTurn wModel wSt "what's your focus Zed" = .ok (.focus none, wSt, 0) :=
  focus_unknown_silent wModel wSt "what's your focus Zed"
    (by decide) (by decide) (by decide) (by decide) (by decide)

/-! ## C7: transcript shape over a run -/

/-- The text one routed turn appends to the shared transcript. -/
def blockStr (t : String × String × String) : String :=
  "\nUser: " ++ t.1 ++ "\n" ++ t.2.1 ++ ": " ++ t.2.2

/-- Concatenate a list of strings. -/
def sjoin : List String → String
  | [] => ""
  | s :: rest => s ++ sjoin rest

/-- The two lines a routed turn contributes: the user line and the
persona-labelled reply line. -/
def lineChunks (t : String × String × String) : List (List Char) :=
  [("User: " ++ t.1).data, (t.2.1 ++ ": " ++ t.2.2).data]

/-- Any turn that ends in a routed reply grew the transcript by exactly its
block: the user line followed by the labelled reply line. -/
theorem runTurn_replied_ctx (model : Model) (st : SimState) (m : String)
    (name r : String) (st' : SimState) (n : Nat)
    (h : runTurn model st m = .ok (.replied name r, st', n)) :
    st'.current_context = st.current_context ++ blockStr (m, name, r) := by
  unfold runTurn at h
  split at h
  · simp at h
  split at h
  · simp at h
  split at h
  · -- focus-command branch
    dsimp only at h
    split at h
    · split at h
      · simp at h
      · simp at h
    · simp at h
  · -- cache check
    split at h
    · simp at h
    · -- addressing
      split at h
      case _ a hfind =>
        obtain ⟨ho, -, -, hctx, -⟩ :=
          doStep_shape model st a m (.replied name r) st' n ((Except.ok.injEq _ _).mp h)
        injection ho with h1 h2
        subst h1 h2
        rw [hctx]
        simp only [blockStr, strAppend_assoc]
      case _ hfind =>
        unfold runBidRound at h
        split at h
        · simp at h
        case _ rr hcb =>
          split at h
          · simp at h
          case _ w hmax =>
            split at h
            · simp at h
            case _ a hfind2 =>
              obtain ⟨ho, -, -, hctx, -⟩ :=
                doStep_shape model { st with agents := rr.2 } a m (.replied name r) st' n
                  ((Except.ok.injEq _ _).mp h)
              injection ho with h1 h2
              subst h1 h2
              rw [hctx]
              simp only [blockStr, strAppend_assoc]

/-- A run of routed turns processes exactly its messages in order and grows
the transcript by the concatenation of the per-turn blocks. -/
theorem runTurns_spec (model : Model) :
    ∀ (msgs : List String) (st stF : SimState)
      (turns : List (String × String × String)),
    runTurns model st msgs = .ok (stF, turns) →
    turns.map Prod.fst = msgs ∧
    stF.current_context = st.current_context ++ sjoin (turns.map blockStr) := by
  intro msgs
  induction msgs with
  | nil =>
    intro st stF turns h
    rw [runTurns] at h
    simp only [Except.ok.injEq, Prod.mk.injEq] at h
    obtain ⟨h1, h2⟩ := h
    subst h1 h2
    exact ⟨rfl, (strAppend_empty _).symm⟩
  | cons m rest ih =>
    intro st stF turns h
    rw [runTurns] at h
    cases hr : runTurn model st m with
    | error e => rw [hr] at h; simp at h
    | ok p =>
      rw [hr] at h
      obtain ⟨o, st1, k⟩ := p
      cases o with
      | exited => simp at h
      | listed es => simp at h
      | focus f => simp at h
      | cached c => simp at h
      | replied name reply =>
        dsimp only at h
        cases hrr : runTurns model st1 rest with
        | error e => rw [hrr] at h; simp at h
        | ok rr =>
          rw [hrr] at h
          simp only [Except.ok.injEq, Prod.mk.injEq] at h
          obtain ⟨h1, h2⟩ := h
          subst h1 h2
          obtain ⟨ihm, ihc⟩ := ih st1 rr.1 rr.2 hrr
          constructor
          · simp [ihm]
          · rw [ihc, runTurn_replied_ctx model st m name reply st1 k hr]
            simp [sjoin, strAppend_assoc]

/-- Splitting a run: the turns of `l₁ ++ l₂` are the turns of `l₁` followed
by the turns of `l₂` run from the middle state. -/
theorem runTurns_append (model : Model) :
    ∀ (l₁ l₂ : List String) (st stM : SimState)
      (t₁ : List (String × String × String)),
    runTurns model st l₁ = .ok (stM, t₁) →
    ∀ (stF : SimState) (ts : List (String × String × String)),
    runTurns model st (l₁ ++ l₂) = .ok (stF, ts) →
    ∃ t₂, runTurns model stM l₂ = .ok (stF, t₂) ∧ ts = t₁ ++ t₂ := by
  intro l₁
  induction l₁ with
  | nil =>
    intro l₂ st stM t₁ h1 stF ts h2
    rw [runTurns] at h1
    simp only [Except.ok.injEq, Prod.mk.injEq] at h1
    obtain ⟨hs, ht⟩ := h1
    subst hs
    subst ht
    exact ⟨ts, by simpa using h2, by simp⟩
  | cons m rest ih =>
    intro l₂ st stM t₁ h1 stF ts h2
    rw [runTurns] at h1
    rw [List.cons_append, runTurns] at h2
    cases hr : runTurn model st m with
    | error e => rw [hr] at h1; simp at h1
    | ok p =>
      rw [hr] at h1 h2
      obtain ⟨o, st1, k⟩ := p
      cases o with
      | exited => simp at h1
      | listed es => simp at h1
      | focus f => simp at h1
      | cached c => simp at h1
      | replied name reply =>
        dsimp only at h1 h2
        cases hrr1 : runTurns model st1 rest with
        | error e => rw [hrr1] at h1; simp at h1
        | ok rr1 =>
          rw [hrr1] at h1
          cases hrr2 : runTurns model st1 (rest ++ l₂) with
          | error e => rw [hrr2] at h2; simp at h2
          | ok rr2 =>
            rw [hrr2] at h2
            simp only [Except.ok.injEq, Prod.mk.injEq] at h1 h2
            obtain ⟨hA, hB⟩ := h1
            obtain ⟨hC, hD⟩ := h2
            subst hA
            subst hB
            subst hC
            subst hD
            obtain ⟨t₂, ht2, hts⟩ := ih l₂ st1 rr1.1 rr1.2 hrr1 rr2.1 rr2.2 hrr2
            exact ⟨t₂, ht2, by simp [hts]⟩

theorem linesOf_ne_nil (l : List Char) : linesOf l ≠ [] := by
  cases l with
  | nil => simp [linesOf]
  | cons c t =>
    rw [linesOf]
    split
    · simp
    · split <;> simp

theorem linesOf_nl_cons (l : List Char) : linesOf ('\n' :: l) = [] :: linesOf l := by
  rw [linesOf, if_pos (by simp)]

/-- Prepending newline-free text extends the first line. -/
theorem linesOf_append_nlfree :
    ∀ (v rest : List Char), '\n' ∉ v →
    linesOf (v ++ rest) = (v ++ (linesOf rest).headD []) :: (linesOf rest).tail := by
  intro v
  induction v with
  | nil =>
    intro rest _
    cases hl : linesOf rest with
    | nil => exact absurd hl (linesOf_ne_nil rest)
    | cons h r => simp [hl]
  | cons c v' ih =>
    intro rest hv
    have hc : ¬ c = '\n' := fun hcc => hv (by rw [hcc]; exact List.mem_cons_self _ _)
    rw [List.cons_append, linesOf, if_neg (by simpa using hc),
      ih rest (fun hmem => hv (List.mem_cons_of_mem c hmem))]
    rfl

/-- The lines of the concatenated turn blocks are exactly: one empty lead-in
(the text starts with a newline), then, per turn in order, the user line and
the persona-labelled reply line. -/
theorem linesOf_sjoin_blocks :
    ∀ (turns : List (String × String × String)),
    (∀ t ∈ turns, '\n' ∉ t.1.data) →
    (∀ t ∈ turns, '\n' ∉ t.2.1.data) →
    (∀ t ∈ turns, '\n' ∉ t.2.2.data) →
    linesOf (sjoin (turns.map blockStr)).data = [] :: turns.flatMap lineChunks := by
  intro turns
  induction turns with
  | nil => intro _ _ _; rfl
  | cons t ts ih =>
    intro hm hn hr
    have hsplit1 : ("\nUser: ").data = '\n' :: ("User: ").data := rfl
    have hsplit2 : ("\n").data = ['\n'] := rfl
    have hdata : (sjoin ((t :: ts).map blockStr)).data =
        '\n' :: (("User: ").data ++ (t.1.data ++ ('\n' ::
          (t.2.1.data ++ ((": ").data ++ (t.2.2.data ++
            (sjoin (ts.map blockStr)).data)))))) := by
      show (blockStr t ++ sjoin (ts.map blockStr)).data = _
      simp only [blockStr, strData_append, hsplit1, hsplit2,
        List.cons_append, List.append_assoc, List.nil_append]
    have huser : '\n' ∉ ("User: ").data ++ t.1.data := by
      intro hmem
      rcases List.mem_append.mp hmem with hmem1 | hmem2
      · exact absurd hmem1 (by decide)
      · exact hm t (List.mem_cons_self t ts) hmem2
    have hlabel : '\n' ∉ (t.2.1.data ++ (": ").data) ++ t.2.2.data := by
      intro hmem
      rcases List.mem_append.mp hmem with hmem1 | hmem2
      · rcases List.mem_append.mp hmem1 with hmem3 | hmem4
        · exact hn t (List.mem_cons_self t ts) hmem3
        · exact absurd hmem4 (by decide)
      · exact hr t (List.mem_cons_self t ts) hmem2
    have ihred : linesOf (sjoin (ts.map blockStr)).data = [] :: ts.flatMap lineChunks :=
      ih (fun x hx => hm x (List.mem_cons_of_mem t hx))
        (fun x hx => hn x (List.mem_cons_of_mem t hx))
        (fun x hx => hr x (List.mem_cons_of_mem t hx))
    rw [hdata, linesOf_nl_cons]
    rw [show ("User: ").data ++ (t.1.data ++ ('\n' ::
        (t.2.1.data ++ ((": ").data ++ (t.2.2.data ++ (sjoin (ts.map blockStr)).data))))) =
      (("User: ").data ++ t.1.data) ++ ('\n' ::
        (t.2.1.data ++ ((": ").data ++ (t.2.2.data ++ (sjoin (ts.map blockStr)).data))))
      from (List.append_assoc _ _ _).symm]
    rw [linesOf_append_nlfree _ _ huser, linesOf_nl_cons]
    rw [show t.2.1.data ++ ((": ").data ++ (t.2.2.data ++ (sjoin (ts.map blockStr)).data)) =
      ((t.2.1.data ++ (": ").data) ++ t.2.2.data) ++ (sjoin (ts.map blockStr)).data
      from by simp [List.append_assoc]]
    rw [linesOf_append_nlfree _ _ hlabel, ihred]
    simp [lineChunks, strData_append]

/-- C7: over a run of `N` sequential routed (non-command, non-cached) turns
whose messages, persona names and replies are single-line, the shared
transcript ends as the initial transcript plus, per turn in order, exactly
one `"User: "` line and one persona-labelled reply line — `2N` new lines,
interleaved in turn order; and the transcript is append-only: after any
prefix of the run the transcript at that point is a prefix (by string
append) of every later transcript. -/
theorem transcript_ordering (model : Model) (st stF : SimState) (msgs : List String)
    (turns : List (String × String × String))
    (hrun : runTurns model st msgs = .ok (stF, turns))
    (hm : ∀ t ∈ turns, '\n' ∉ t.1.data)
    (hn : ∀ t ∈ turns, '\n' ∉ t.2.1.data)
    (hr : ∀ t ∈ turns, '\n' ∉ t.2.2.data) :
    turns.map Prod.fst = msgs ∧
    stF.current_context = st.current_context ++ sjoin (turns.map blockStr) ∧
    linesOf (sjoin (turns.map blockStr)).data = [] :: turns.flatMap lineChunks ∧
    (∀ (l₁ l₂ : List String) (stM : SimState)
       (t₁ : List (String × String × String)),
      msgs = l₁ ++ l₂ → runTurns model st l₁ = .ok (stM, t₁) →
      ∃ tail, stF.current_context = stM.current_context ++ tail) := by
  obtain ⟨h1, h2⟩ := runTurns_spec model msgs st stF turns hrun
  refine ⟨h1, h2, linesOf_sjoin_blocks turns hm hn hr, ?_⟩
  intro l₁ l₂ stM t₁ hsplit hrun1
  subst hsplit
  obtain ⟨t₂, hrun2, -⟩ := runTurns_append model l₁ l₂ st stM t₁ hrun1 stF turns hrun
  obtain ⟨-, hctx2⟩ := runTurns_spec model l₂ stM stF t₂ hrun2
  exact ⟨_, hctx2⟩

/-- C7 witness: a concrete two-turn run. -/
theorem transcript_ordering_witness :
    ∃ stF turns, runTurns wModel wSt ["alpha", "beta"] = .ok (stF, turns) ∧
      (turns.map Prod.fst = ["alpha", "beta"] ∧
       stF.current_context = wSt.current_context ++ sjoin (turns.map blockStr) ∧
       linesOf (sjoin (turns.map blockStr)).data = [] :: turns.flatMap lineChunks ∧
       (∀ (l₁ l₂ : List String) (stM : SimState)
          (t₁ : List (String × String × String)),
         ["alpha", "beta"] = l₁ ++ l₂ → runTurns wModel wSt l₁ = .ok (stM, t₁) →
         ∃ tail, stF.current_context = stM.current_context ++ tail)) := by
  refine ⟨_, _, rfl,
    transcript_ordering wModel wSt _ ["alpha", "beta"] _ rfl ?_ ?_ ?_⟩
  · decide
  · decide
  · decide
